import Mathlib

/-!
Verification of the qtcre-rs resource reader: a shallow embedding of the
crate's byte-level decoding, hashing, path normalisation and lookup code,
followed by theorems about the embedded definitions.

Conventions of the embedding:
* the byte image is a `List Nat` of byte values; all multi-byte reads are
  big-endian, bounds-checked exactly as `bytes.get(off..off + n)` is;
* Rust `u32` wrap-around (release semantics) is written as an explicit
  `% 4294967296`;
* fallible operations return `Except Err _`; `WrapError` turning an
  `UnexpectedEof` I/O error into `Error::OutOfBounds` is baked into the
  translation of each read (every short read in this crate is an
  `UnexpectedEof`);
* strings are `List Char`; UTF-16 code units and Unicode scalar values are
  plain `Nat`s.
-/

/-- Error kinds of `src/error.rs` (contexts attached to each error are
dropped; only the kind matters for the properties below). -/
inductive Err where
  | invalidOffset
  | unsupportedVersion
  | invalidHeaderMagic
  | outOfBounds
  | ioError
  | invalidData
deriving DecidableEq

/-- Big-endian integer value of a byte list (`from_be_bytes`). -/
def beVal (l : List Nat) : Nat := l.foldl (fun a x => a * 256 + x) 0

/-- `<[u8] as ReadFromOffset>::read_from_offset`: read `n` bytes at `off`,
`none` when `off + n` exceeds the image (Rust returns `UnexpectedEof`). -/
def readBE (b : List Nat) (off n : Nat) : Option Nat :=
  if off + n ≤ b.length then some (beVal ((b.drop off).take n)) else none

def readU16 (b : List Nat) (off : Nat) : Option Nat := readBE b off 2

def readU32 (b : List Nat) (off : Nat) : Option Nat := readBE b off 4

def readU64 (b : List Nat) (off : Nat) : Option Nat := readBE b off 8

theorem readBE_le (b : List Nat) (off n v : Nat) (h : readBE b off n = some v) :
    off + n ≤ b.length := by
  unfold readBE at h
  by_cases hle : off + n ≤ b.length
  · exact hle
  · simp [hle] at h

/-- One step of `qt_hash` over a single UTF-16 code unit: the shift is a
wrapping `u32` left shift, the xor folds the top nibble in, the final mask
keeps 28 bits (`src/utils.rs`). -/
def qtHashStep (result c : Nat) : Nat :=
  let r1 := (result * 16 + c) % 4294967296
  let r2 := Nat.xor r1 (Nat.land r1 0xf0000000 >>> 23)
  Nat.land r2 0x0fffffff

/-- Encode one Unicode scalar value as UTF-16 code units
(`str::encode_utf16` semantics). -/
def utf16EncodeChar (c : Nat) : List Nat :=
  if c < 0x10000 then [c]
  else [0xD800 + (c - 0x10000) / 0x400, 0xDC00 + (c - 0x10000) % 0x400]

/-- UTF-16 code units of a string, in source order. -/
def utf16Encode (s : List Char) : List Nat :=
  (s.map fun c => utf16EncodeChar c.toNat).flatten

/-- Port of `qt_hash` in `src/utils.rs`: fold `qtHashStep` over the UTF-16
code units of the key, starting from the chaining value. -/
def qt_hash (key : List Char) (chained : Nat) : Nat :=
  (utf16Encode key).foldl qtHashStep chained

def certsKey : List Char := "certs".toList

def clientKey : List Char := "Client".toList

def clientP12Key : List Char := "client.p12".toList

theorem qtHashStep_lt (r c : Nat) : qtHashStep r c < 268435456 := by
  have h := Nat.and_le_right (n := Nat.xor ((r * 16 + c) % 4294967296)
    (Nat.land ((r * 16 + c) % 4294967296) 0xf0000000 >>> 23)) (m := 0x0fffffff)
  calc qtHashStep r c ≤ 0x0fffffff := h
    _ < 268435456 := by norm_num

theorem qtHash_foldl_lt (l : List Nat) (r : Nat) (hr : r < 268435456) :
    l.foldl qtHashStep r < 268435456 := by
  induction l generalizing r with
  | nil => simpa using hr
  | cons c rest ih => exact ih (qtHashStep r c) (qtHashStep_lt r c)

/-- C2: the name hasher matches the reference vectors and, chained from 0,
always produces a 28-bit value. -/
theorem c2_qt_hash_reference_vectors :
    qt_hash certsKey 0 = 6932915 ∧
    qt_hash clientKey 0 = 77790292 ∧
    qt_hash clientP12Key 0 = 207230626 ∧
    ∀ key : List Char, qt_hash key 0 < 268435456 := by
  refine ⟨by decide, by decide, by decide, ?_⟩
  intro key
  exact qtHash_foldl_lt (utf16Encode key) 0 (by norm_num)

/-- `CompressionAlgorithm` of `src/types/compression.rs`. -/
inductive CompressionAlgorithm where
  | none
  | zlib
  | zstd
deriving DecidableEq

/-- `impl From<u16> for CompressionAlgorithm`: mask the flags with
`ZlibCompression | ZstdCompression` (= 0x01 | 0x04) and compare the masked
value against each single flag. -/
def CompressionAlgorithm.ofFlags (value : Nat) : CompressionAlgorithm :=
  let compressionFlags := value &&& (1 ||| 4)
  if compressionFlags = 1 then CompressionAlgorithm.zlib
  else if compressionFlags = 4 then CompressionAlgorithm.zstd
  else CompressionAlgorithm.none

/-- C3 counterexample: a flags value with both the zlib bit (0x01) and the
zstd bit (0x04) set maps to `None`, not to `Zlib` as the claim states. -/
theorem c3_both_bits_counterexample :
    CompressionAlgorithm.ofFlags 5 = CompressionAlgorithm.none ∧
    CompressionAlgorithm.ofFlags 5 ≠ CompressionAlgorithm.zlib := by
  constructor
  · rfl
  · decide

theorem testBit_five (i : Nat) :
    Nat.testBit 5 i = (Nat.testBit 1 i || Nat.testBit 4 i) := by
  match i with
  | 0 => rfl
  | 1 => rfl
  | 2 => rfl
  | (n + 3) =>
    have h5 : Nat.testBit 5 (n + 3) = false :=
      Nat.testBit_lt_two_pow (by
        calc (5 : Nat) < 2 ^ 3 := by norm_num
          _ ≤ 2 ^ (n + 3) := Nat.pow_le_pow_right (by norm_num) (by omega))
    have h1 : Nat.testBit 1 (n + 3) = false :=
      Nat.testBit_lt_two_pow (by
        calc (1 : Nat) < 2 ^ 3 := by norm_num
          _ ≤ 2 ^ (n + 3) := Nat.pow_le_pow_right (by norm_num) (by omega))
    have h4 : Nat.testBit 4 (n + 3) = false :=
      Nat.testBit_lt_two_pow (by
        calc (4 : Nat) < 2 ^ 3 := by norm_num
          _ ≤ 2 ^ (n + 3) := Nat.pow_le_pow_right (by norm_num) (by omega))
    rw [h5, h1, h4]
    rfl

theorem and_five_split (v : Nat) : v &&& 5 = (v &&& 1) ||| (v &&& 4) := by
  apply Nat.eq_of_testBit_eq
  intro i
  rw [Nat.testBit_or, Nat.testBit_and, Nat.testBit_and, Nat.testBit_and,
    testBit_five]
  cases Nat.testBit v i <;> simp

theorem and_one_cases (v : Nat) : v &&& 1 = 0 ∨ v &&& 1 = 1 := by
  have h := Nat.and_le_right (n := v) (m := 1)
  omega

theorem and_four_cases (v : Nat) : v &&& 4 = 0 ∨ v &&& 4 = 4 := by
  have h : v &&& 4 = (Nat.testBit v 2).toNat * 4 := by
    have := Nat.and_two_pow v 2
    simpa using this
  cases Nat.testBit v 2 <;> simp [h]

/-- C3 amended: bit 0x01 alone yields zlib, bit 0x04 alone yields zstd,
neither yields none, and when both bits are set the result is none
(not zlib). -/
theorem c3_compression_amended (v : Nat) :
    (v &&& 1 ≠ 0 → v &&& 4 = 0 →
      CompressionAlgorithm.ofFlags v = CompressionAlgorithm.zlib) ∧
    (v &&& 4 ≠ 0 → v &&& 1 = 0 →
      CompressionAlgorithm.ofFlags v = CompressionAlgorithm.zstd) ∧
    (v &&& 1 = 0 → v &&& 4 = 0 →
      CompressionAlgorithm.ofFlags v = CompressionAlgorithm.none) ∧
    (v &&& 1 ≠ 0 → v &&& 4 ≠ 0 →
      CompressionAlgorithm.ofFlags v = CompressionAlgorithm.none) := by
  have hsplit := and_five_split v
  have h1 := and_one_cases v
  have h4 := and_four_cases v
  have h14 : (1 ||| 4 : Nat) = 5 := by decide
  have hval : v &&& (1 ||| 4) = v &&& 5 := by rw [h14]
  refine ⟨?_, ?_, ?_, ?_⟩ <;> intro ha hb <;>
    unfold CompressionAlgorithm.ofFlags <;> rw [hval, hsplit]
  · rcases h1 with h | h
    · exact absurd h ha
    · rw [h, hb]; rfl
  · rcases h4 with h | h
    · exact absurd h ha
    · rw [h, hb]; rfl
  · rw [ha, hb]; rfl
  · rcases h1 with h | h
    · exact absurd h ha
    · rcases h4 with h' | h'
      · exact absurd h' hb
      · rw [h, h']; rfl

theorem c3_amended_witness :
    (7 &&& 1 ≠ 0 → 7 &&& 4 ≠ 0 →
      CompressionAlgorithm.ofFlags 7 = CompressionAlgorithm.none) ∧
    CompressionAlgorithm.ofFlags 7 = CompressionAlgorithm.none :=
  ⟨(c3_compression_amended 7).2.2.2,
    (c3_compression_amended 7).2.2.2 (by decide) (by decide)⟩

/-- Decoded fields of `RCCFileHeaderReader` (`src/readers/header.rs`). -/
structure RCCHeader where
  magic : List Nat
  format_version : Nat
  struct_offset : Nat
  data_offset : Nat
  name_offset : Nat
  overall_flags : Option Nat
deriving DecidableEq

def rccMagic : List Nat := [0x71, 0x72, 0x65, 0x73]

/-- `RCCFileHeaderReader::new`: sequential big-endian reads through a cursor.
Each short read is an `UnexpectedEof` that `WrapError` turns into
`Error::OutOfBounds` (`src/error.rs`). -/
def RCCFileHeaderReader.new (bytes : List Nat) : Except Err RCCHeader :=
  if bytes.length < 4 then Except.error Err.outOfBounds
  else
    let magic := bytes.take 4
    if magic ≠ rccMagic then Except.error Err.invalidHeaderMagic
    else
      match readU32 bytes 4 with
      | none => Except.error Err.outOfBounds
      | some format_version =>
        match readU32 bytes 8 with
        | none => Except.error Err.outOfBounds
        | some struct_offset =>
          match readU32 bytes 12 with
          | none => Except.error Err.outOfBounds
          | some data_offset =>
            match readU32 bytes 16 with
            | none => Except.error Err.outOfBounds
            | some name_offset =>
              if 3 ≤ format_version then
                match readU32 bytes 20 with
                | none => Except.error Err.outOfBounds
                | some flags =>
                  Except.ok ⟨magic, format_version, struct_offset,
                    data_offset, name_offset, some flags⟩
              else
                Except.ok ⟨magic, format_version, struct_offset,
                  data_offset, name_offset, none⟩

def headerInput3 : List Nat := [0x71, 0x72, 0x65]

def headerInput5 : List Nat := [0x71, 0x72, 0x65, 0x73, 0x00]

def headerInput9 : List Nat := [0x71, 0x72, 0x65, 0x73, 0x00, 0x01, 0x02, 0x03, 0x04]

/-- C4: the header decoder maps each magic-prefixed short input to
`Error::OutOfBounds`, because `WrapError` reclassifies the cursor's
`UnexpectedEof` reads; the claim (and the crate's own
`should_error_when_buffer_is_too_small` test) expects the `IO` kind. -/
theorem c4_short_header_is_out_of_bounds :
    RCCFileHeaderReader.new headerInput3 = Except.error Err.outOfBounds ∧
    RCCFileHeaderReader.new headerInput5 = Except.error Err.outOfBounds ∧
    RCCFileHeaderReader.new headerInput9 = Except.error Err.outOfBounds ∧
    Err.outOfBounds ≠ Err.ioError := by
  refine ⟨rfl, rfl, rfl, by decide⟩

/-- The sanity check of the embedding against the crate's
`should_parse_file_header` test vector. -/
theorem header_happy_path :
    RCCFileHeaderReader.new [0x71, 0x72, 0x65, 0x73, 0x00, 0x00, 0x00, 0x03,
      0x00, 0x00, 0xF6, 0x82, 0x00, 0x00, 0x00, 0x18, 0x00, 0x00, 0xF6, 0x58,
      0x00, 0x00, 0x00, 0x00] =
    Except.ok ⟨rccMagic, 3, 0xF682, 0x18, 0xF658, some 0⟩ := by
  rfl

/-- `ResourceReader` (`src/readers/default.rs`): the four structural
parameters plus the borrowed byte image. -/
structure Reader where
  struct_offset : Nat
  name_offset : Nat
  data_offset : Nat
  format_version : Nat
  bytes : List Nat

/-- `ResourceReader::find_ptr`: `index * (14 + (if version >= 2 { 8 } else { 0 }))`
in wrapping `u32` arithmetic, added to `struct_offset`. -/
def ResourceReader.find_ptr (r : Reader) (index : Nat) : Nat :=
  r.struct_offset +
    (index * (14 + (if 2 ≤ r.format_version then 8 else 0))) % 4294967296

def readerC5 : Reader := ⟨5, 0, 0, 2, []⟩

/-- C5 counterexample: at format version 2 and index `2^31` the `u32`
multiplication wraps to 0, so the computed base is `struct_offset`, not
`struct_offset + i * 22`. -/
theorem c5_find_ptr_counterexample :
    ResourceReader.find_ptr readerC5 2147483648 = 5 ∧
    readerC5.struct_offset + 2147483648 * 22 ≠ 5 := by
  constructor
  · rfl
  · decide

/-- C5 amended: when `i * stride` fits in a `u32` (no wrap), the record base
is `struct_offset + i * stride` with stride 14 below version 2 and 22 from
version 2 on. -/
theorem c5_find_ptr_stride (r : Reader) (i : Nat)
    (hv : r.format_version ≤ 3)
    (hfit : i * (if r.format_version < 2 then 14 else 22) < 4294967296) :
    ResourceReader.find_ptr r i =
      r.struct_offset + i * (if r.format_version < 2 then 14 else 22) := by
  unfold ResourceReader.find_ptr
  by_cases h2 : 2 ≤ r.format_version
  · have hlt : ¬ r.format_version < 2 := by omega
    simp only [h2, if_true, hlt, if_false] at *
    rw [Nat.mod_eq_of_lt hfit]
  · have hlt : r.format_version < 2 := by omega
    simp only [h2, if_false, hlt, if_true] at *
    have : i * (14 + 0) = i * 14 := by ring
    rw [this, Nat.mod_eq_of_lt (by omega)]

theorem c5_find_ptr_stride_witness :
    readerC5.format_version ≤ 3 ∧
    (3 * (if readerC5.format_version < 2 then 14 else 22) < 4294967296) ∧
    ResourceReader.find_ptr readerC5 3 =
      readerC5.struct_offset + 3 * (if readerC5.format_version < 2 then 14 else 22) :=
  ⟨by decide, by decide, c5_find_ptr_stride readerC5 3 (by decide) (by decide)⟩

/-- A derived resource handle: the record's base address, its kind bit, and
the absolute virtual path stamped by the resolver. The path is represented
as the list of segment names (each a list of Unicode scalar values); the
root `/` is the empty list. -/
structure Res where
  ptr : Nat
  isDir : Bool
  absolutePath : List (List Nat)
deriving DecidableEq

/-- `Resource::derive` (`src/types/resource/mod.rs`): read the 2-byte flags
at `find_ptr(index) + 4`; bit 0x02 decides directory versus file. -/
def Resource.derive (r : Reader) (index : Nat) : Except Err Res :=
  match readU16 r.bytes (ResourceReader.find_ptr r index + 4) with
  | none => Except.error Err.outOfBounds
  | some flags =>
    Except.ok ⟨ResourceReader.find_ptr r index, decide (0 < flags &&& 2), []⟩

def isOkE {ε α : Type} : Except ε α → Bool
  | Except.ok _ => true
  | Except.error _ => false

theorem derive_ok_shape (r : Reader) (index : Nat) (node : Res)
    (h : Resource.derive r index = Except.ok node) :
    node.ptr = ResourceReader.find_ptr r index ∧ node.absolutePath = [] := by
  unfold Resource.derive at h
  cases hr : readU16 r.bytes (ResourceReader.find_ptr r index + 4) with
  | none => rw [hr] at h; cases h
  | some flags =>
    rw [hr] at h
    cases h
    exact ⟨rfl, rfl⟩

theorem derive_isOk_ex (r : Reader) (index : Nat)
    (h : isOkE (Resource.derive r index) = true) :
    ∃ node, Resource.derive r index = Except.ok node := by
  cases hd : Resource.derive r index with
  | ok node => exact ⟨node, rfl⟩
  | error e => rw [hd] at h; cases h

/-- `ResourceBase::internal_get_hash`: follow the 4-byte name-table offset at
the record base, then read the 4-byte hash stored 2 bytes into the name
entry. -/
def resourceHash (r : Reader) (ptr : Nat) : Except Err Nat :=
  match readU32 r.bytes ptr with
  | none => Except.error Err.outOfBounds
  | some nameOff =>
    match readU32 r.bytes (r.name_offset + nameOff + 2) with
    | none => Except.error Err.outOfBounds
    | some h => Except.ok h

/-- Read `count` consecutive big-endian 16-bit units starting at `off`
(`read_u16_into`). -/
def readUnits (b : List Nat) (off : Nat) : Nat → Option (List Nat)
  | 0 => some []
  | n + 1 =>
    match readU16 b off with
    | none => none
    | some u =>
      match readUnits b (off + 2) n with
      | none => none
      | some rest => some (u :: rest)

def utf16PairScalar (u l : Nat) : Nat :=
  0x10000 + (u - 0xD800) * 0x400 + (l - 0xDC00)

/-- Decode UTF-16 code units into Unicode scalar values;
`none` on any unpaired surrogate (`String::from_utf16` semantics). -/
def utf16Decode : List Nat → Option (List Nat)
  | [] => some []
  | u :: rest =>
    if u < 0xD800 ∨ 0xE000 ≤ u then (utf16Decode rest).map (u :: ·)
    else if 0xDC00 ≤ u then none
    else
      match rest with
      | [] => none
      | l :: rest2 =>
        if 0xDC00 ≤ l ∧ l < 0xE000 then
          (utf16Decode rest2).map (utf16PairScalar u l :: ·)
        else none
termination_by l => l.length
decreasing_by
  all_goals simp only [List.length_cons]
  all_goals omega

/-- `ResourceBase::internal_get_name`: 2-byte length, 4 skipped hash bytes,
then `2 * length` bytes of UTF-16BE; invalid UTF-16 is `InvalidData`. -/
def resourceName (r : Reader) (ptr : Nat) : Except Err (List Nat) :=
  match readU32 r.bytes ptr with
  | none => Except.error Err.outOfBounds
  | some nameOff =>
    match readU16 r.bytes (r.name_offset + nameOff) with
    | none => Except.error Err.outOfBounds
    | some len =>
      match readUnits r.bytes (r.name_offset + nameOff + 6) len with
      | none => Except.error Err.outOfBounds
      | some units =>
        match utf16Decode units with
        | none => Except.error Err.invalidData
        | some scalars => Except.ok scalars

/-- `ResourceDirectory::child_count`: 4-byte field at record base + 6. -/
def ResourceDirectory.child_count (r : Reader) (ptr : Nat) : Except Err Nat :=
  match readU32 r.bytes (ptr + 6) with
  | none => Except.error Err.outOfBounds
  | some v => Except.ok v

/-- `ResourceDirectory::child_offset`: 4-byte field at record base + 10. -/
def ResourceDirectory.child_offset (r : Reader) (ptr : Nat) : Except Err Nat :=
  match readU32 r.bytes (ptr + 10) with
  | none => Except.error Err.outOfBounds
  | some v => Except.ok v

/-- Interpret a `u64` bit pattern as an `i64` (`raw as i64`). -/
def i64OfU64 (raw : Nat) : Int :=
  if raw < 9223372036854775808 then (raw : Int)
  else (raw : Int) - 18446744073709551616

/-- Modelled from the spec: the external timestamp conversion
(chrono's `NaiveDateTime::from_timestamp_millis`, an out-of-scope
collaborator) accepts exactly the milliseconds whose date lies in the
representable range and yields no timestamp outside it. -/
def representableMillis (m : Int) : Bool :=
  decide (-8334601228800000 ≤ m) && decide (m ≤ 8210298412799999)

/-- Modelled from the spec: successful conversion keeps the millisecond
value, out-of-range input yields `none` rather than an error. -/
def fromTimestampMillis (m : Int) : Option Int :=
  if representableMillis m then some m else none

/-- `ResourceFile::last_modified` (`src/types/resource/file.rs`): no
timestamp below format version 2; otherwise the 8-byte field at record
base + 14 converted from signed milliseconds. -/
def ResourceFile.last_modified (r : Reader) (ptr : Nat) :
    Except Err (Option Int) :=
  if r.format_version < 2 then Except.ok none
  else
    match readU64 r.bytes (ptr + 14) with
    | none => Except.error Err.outOfBounds
    | some raw => Except.ok (fromTimestampMillis (i64OfU64 raw))

/-- C8: the last-modified accessor returns no timestamp below version 2 and,
from version 2 on, converts the 8-byte field at base + 14; a value outside
the representable range is reported as no timestamp, not as an error. -/
theorem c8_last_modified (r : Reader) (ptr raw : Nat) :
    (r.format_version < 2 → ResourceFile.last_modified r ptr = Except.ok none) ∧
    (2 ≤ r.format_version → readU64 r.bytes (ptr + 14) = some raw →
      ResourceFile.last_modified r ptr =
        Except.ok (fromTimestampMillis (i64OfU64 raw)) ∧
      (representableMillis (i64OfU64 raw) = false →
        ResourceFile.last_modified r ptr = Except.ok none)) := by
  constructor
  · intro hv
    unfold ResourceFile.last_modified
    simp [hv]
  · intro hv hread
    have hnlt : ¬ r.format_version < 2 := by omega
    constructor
    · unfold ResourceFile.last_modified
      simp [hnlt, hread]
    · intro hout
      unfold ResourceFile.last_modified
      simp [hnlt, hread, fromTimestampMillis, hout]

def readerC8v1 : Reader := ⟨0, 0, 0, 1, []⟩

def readerC8v2 : Reader :=
  ⟨0, 0, 0, 2,
    [0, 0, 0, 0, 0, 0, 0, 0, 0, 0, 0, 0, 0, 0,
     127, 255, 255, 255, 255, 255, 255, 255]⟩

theorem c8_last_modified_witness :
    ResourceFile.last_modified readerC8v1 0 = Except.ok none ∧
    ResourceFile.last_modified readerC8v2 0 = Except.ok none :=
  ⟨(c8_last_modified readerC8v1 0 0).1 (by decide),
    ((c8_last_modified readerC8v2 0 9223372036854775807).2 (by decide)
      (by rfl)).2 (by decide)⟩

/-- `ResourceFile::data_offset`: 4-byte field at record base + 10. -/
def ResourceFile.data_offset (r : Reader) (ptr : Nat) : Except Err Nat :=
  match readU32 r.bytes (ptr + 10) with
  | none => Except.error Err.outOfBounds
  | some v => Except.ok v

/-- `ResourceFile::compression_algo`: the 2-byte flags at record base + 4
mapped through `CompressionAlgorithm::from`. -/
def ResourceFile.compression_algo (r : Reader) (ptr : Nat) :
    Except Err CompressionAlgorithm :=
  match readU16 r.bytes (ptr + 4) with
  | none => Except.error Err.outOfBounds
  | some flags => Except.ok (CompressionAlgorithm.ofFlags flags)

/-- `ResourceFile::raw_data`: at `data_offset + data_table_offset` read the
4-byte payload size, then slice exactly that many bytes
(`bytes.get(offset..offset + size)`). -/
def ResourceFile.raw_data (r : Reader) (ptr : Nat) : Except Err (List Nat) :=
  match ResourceFile.data_offset r ptr with
  | Except.error e => Except.error e
  | Except.ok d =>
    let off := r.data_offset + d
    match readU32 r.bytes off with
    | none => Except.error Err.outOfBounds
    | some size =>
      if off + 4 + size ≤ r.bytes.length then
        Except.ok ((r.bytes.drop (off + 4)).take size)
      else Except.error Err.outOfBounds

/-- `ResourceFile::size`: empty payloads are size 0 before any codec is
consulted; zlib reads its 4-byte uncompressed-size prefix; zstd asks the
external `get_frame_content_size`, passed here as a parameter
(`Except Unit` mirrors its `Result<Option<u64>, _>` shape). -/
def ResourceFile.size (fcs : List Nat → Except Unit (Option Nat))
    (r : Reader) (ptr : Nat) : Except Err Nat :=
  match ResourceFile.raw_data r ptr with
  | Except.error e => Except.error e
  | Except.ok data =>
    if data = [] then Except.ok 0
    else
      match ResourceFile.compression_algo r ptr with
      | Except.error e => Except.error e
      | Except.ok CompressionAlgorithm.none => Except.ok data.length
      | Except.ok CompressionAlgorithm.zstd =>
        match fcs data with
        | Except.error _ => Except.error Err.invalidData
        | Except.ok none => Except.error Err.invalidData
        | Except.ok (some n) => Except.ok n
      | Except.ok CompressionAlgorithm.zlib =>
        match readU32 data 0 with
        | none => Except.error Err.outOfBounds
        | some n => Except.ok n

/-- Rust `Cow<[u8]>`: a payload either borrowed from the image or owned
after decompression. -/
inductive CowBytes where
  | borrowed (data : List Nat)
  | owned (data : List Nat)
deriving DecidableEq

/-- `ResourceFile::data`: empty or uncompressed payloads are borrowed in
place; otherwise the buffer capacity comes from `size` and the external
codecs (parameters `zstdD`, `zlibD`) run, their failures surfacing as `IO`.
The Rust guard `data.is_empty() || algo == None` plus its
`unreachable!()` arm are written as the equivalent nested match. -/
def ResourceFile.data (zstdD : Nat → List Nat → Except Unit (List Nat))
    (zlibD : List Nat → Except Unit (List Nat))
    (fcs : List Nat → Except Unit (Option Nat))
    (r : Reader) (ptr : Nat) : Except Err CowBytes :=
  match ResourceFile.raw_data r ptr with
  | Except.error e => Except.error e
  | Except.ok data =>
    match ResourceFile.compression_algo r ptr with
    | Except.error e => Except.error e
    | Except.ok algo =>
      if data = [] then Except.ok (CowBytes.borrowed data)
      else
        match algo with
        | CompressionAlgorithm.none => Except.ok (CowBytes.borrowed data)
        | CompressionAlgorithm.zstd =>
          match ResourceFile.size fcs r ptr with
          | Except.error e => Except.error e
          | Except.ok cap =>
            match zstdD cap data with
            | Except.error _ => Except.error Err.ioError
            | Except.ok buf => Except.ok (CowBytes.owned buf)
        | CompressionAlgorithm.zlib =>
          match ResourceFile.size fcs r ptr with
          | Except.error e => Except.error e
          | Except.ok _cap =>
            if 4 ≤ data.length then
              match zlibD (data.drop 4) with
              | Except.error _ => Except.error Err.ioError
              | Except.ok buf => Except.ok (CowBytes.owned buf)
            else Except.error Err.outOfBounds

/-- C9: a payload whose 4-byte size field is 0 reads back as the empty
slice, reports size 0, and is returned borrowed by `data` — for every
choice of codec functions, so no decompression codec is ever consulted,
whatever the compression flags say. -/
theorem c9_empty_payload (r : Reader) (ptr d flags : Nat)
    (hoff : readU32 r.bytes (ptr + 10) = some d)
    (hsz : readU32 r.bytes (r.data_offset + d) = some 0)
    (hflags : readU16 r.bytes (ptr + 4) = some flags) :
    ResourceFile.raw_data r ptr = Except.ok [] ∧
    (∀ fcs, ResourceFile.size fcs r ptr = Except.ok 0) ∧
    (∀ zstdD zlibD fcs,
      ResourceFile.data zstdD zlibD fcs r ptr =
        Except.ok (CowBytes.borrowed [])) := by
  have hlen : r.data_offset + d + 4 ≤ r.bytes.length :=
    readBE_le r.bytes (r.data_offset + d) 4 0 hsz
  have hraw : ResourceFile.raw_data r ptr = Except.ok [] := by
    unfold ResourceFile.raw_data ResourceFile.data_offset
    rw [hoff]
    simp only [hsz]
    have hcond : r.data_offset + d + 4 + 0 ≤ r.bytes.length := by omega
    simp [hcond]
  refine ⟨hraw, ?_, ?_⟩
  · intro fcs
    unfold ResourceFile.size
    rw [hraw]
    simp
  · intro zstdD zlibD fcs
    unfold ResourceFile.data ResourceFile.compression_algo
    rw [hraw, hflags]
    simp

def readerC9 : Reader :=
  ⟨0, 0, 14, 1,
    [0, 0, 0, 0, 0, 1, 0, 0, 0, 0, 0, 0, 0, 0, 0, 0, 0, 0]⟩

theorem c9_empty_payload_witness :
    ResourceFile.raw_data readerC9 0 = Except.ok [] ∧
    (ResourceFile.size (fun _ => Except.error ()) readerC9 0 = Except.ok 0) ∧
    (ResourceFile.data (fun _ _ => Except.error ()) (fun _ => Except.error ())
      (fun _ => Except.error ()) readerC9 0 = Except.ok (CowBytes.borrowed [])) := by
  have h := c9_empty_payload readerC9 0 0 1 (by rfl) (by rfl) (by rfl)
  exact ⟨h.1, h.2.1 _, h.2.2 _ _ _⟩

def backslashToSlash (c : Char) : Char := if c = '\\' then '/' else c

/-- `str_to_unix_path` (`src/utils.rs`): when the second character is `:`,
drop the first two characters (and one following backslash) and prepend
`/`; otherwise replace every backslash by a slash (the untouched string is
returned as-is, matching the borrowed `Cow`). -/
def str_to_unix_path (s : List Char) : List Char :=
  match s with
  | _ :: ':' :: rest =>
    match rest with
    | '\\' :: rest2 => '/' :: rest2.map backslashToSlash
    | _ => '/' :: rest.map backslashToSlash
  | _ => if s.contains '\\' then s.map backslashToSlash else s

/-- Resolve `.` and `..` segments against the root, parent of root being the
root (`path_absolutize::Absolutize::absolutize_from("/")`); the stack holds
the segments in reverse. -/
def resolveDots (stack : List (List Char)) : List (List Char) → List (List Char)
  | [] => stack.reverse
  | seg :: rest =>
    if seg = ['.'] then resolveDots stack rest
    else if seg = ['.', '.'] then resolveDots stack.tail rest
    else resolveDots (seg :: stack) rest

/-- Path normalisation used by `ResourceReader::find`: fold the Windows
dialect to POSIX, split on `/`, absolutise against the root and keep only
the `Normal` components. -/
def normalizePath (s : String) : List (List Char) :=
  resolveDots [] (((str_to_unix_path s.toList).splitOn '/').filter
    (fun seg => seg ≠ []))

/-- The loop of `ResourceReader::binary_search` with exact (unbounded)
midpoint arithmetic. In the source `left`, `right` and `left + right` are
`u32`; `bsearchChecked` below models that addition bit-faithfully, and
`bsearchChecked_eq_loop` proves the two agree whenever
`child_count <= 2^31`, the only regime in which the source's overflow
branch is unreachable (C10). -/
def ResourceReader.bsearchLoop (r : Reader) (key co left right : Nat) :
    Except Err (Option Res) :=
  if _h : left < right then
    match Resource.derive r (co + (left + right) / 2) with
    | Except.error e => Except.error e
    | Except.ok node =>
      match resourceHash r node.ptr with
      | Except.error e => Except.error e
      | Except.ok hsh =>
        if hsh = key then Except.ok (some node)
        else if hsh < key then
          ResourceReader.bsearchLoop r key co ((left + right) / 2 + 1) right
        else ResourceReader.bsearchLoop r key co left ((left + right) / 2)
  else Except.ok none
termination_by right - left
decreasing_by
  all_goals omega

/-- `ResourceReader::binary_search`: hash-ordered search over the child
range, the probe key being `qt_hash(key, 0)`; only hashes are compared,
never names. -/
def ResourceReader.binary_search (r : Reader) (key : List Char)
    (child_count child_offset : Nat) : Except Err (Option Res) :=
  ResourceReader.bsearchLoop r (qt_hash key 0) child_offset 0 child_count

/-- Outcome of a loop whose arithmetic can overflow: either the value the
loop returns, or the overflow panic of checked `u32` arithmetic (in release
builds the sum wraps instead, and the probe leaves the claimed halving
sequence entirely). -/
inductive LoopOut (A : Type) where
  | done (val : A)
  | panicked

/-- The loop of `ResourceReader::binary_search` with the `u32` addition
modelled exactly: `left + right` beyond `u32::MAX` is the overflow (panic)
branch; below it the midpoint is the exact `(left + right) / 2` of the
source. -/
def ResourceReader.bsearchChecked (r : Reader) (key co left right : Nat) :
    LoopOut (Except Err (Option Res)) :=
  if _h : left < right then
    if _hov : left + right ≤ 4294967295 then
      match Resource.derive r (co + (left + right) / 2) with
      | Except.error e => LoopOut.done (Except.error e)
      | Except.ok node =>
        match resourceHash r node.ptr with
        | Except.error e => LoopOut.done (Except.error e)
        | Except.ok hsh =>
          if hsh = key then LoopOut.done (Except.ok (some node))
          else if hsh < key then
            ResourceReader.bsearchChecked r key co ((left + right) / 2 + 1) right
          else ResourceReader.bsearchChecked r key co left ((left + right) / 2)
    else LoopOut.panicked
  else LoopOut.done (Except.ok none)
termination_by right - left
decreasing_by
  all_goals omega

/-- `ResourceReader::binary_search` under the bit-faithful checked-`u32`
loop. -/
def ResourceReader.binary_search_checked (r : Reader) (key : List Char)
    (child_count child_offset : Nat) : LoopOut (Except Err (Option Res)) :=
  ResourceReader.bsearchChecked r (qt_hash key 0) child_offset 0 child_count

/-- The `while let` descent loop of `ResourceReader::find`: one segment per
iteration, stamping the absolute path from the decoded names. -/
def ResourceReader.findLoop (r : Reader) (acc : List (List Nat)) (cc co : Nat) :
    List (List Char) → Except Err (Option Res)
  | [] => Except.ok none
  | seg :: rest =>
    match ResourceReader.binary_search r seg cc co with
    | Except.error e => Except.error e
    | Except.ok none => Except.ok none
    | Except.ok (some node) =>
      match resourceName r node.ptr with
      | Except.error e => Except.error e
      | Except.ok nm =>
        if node.isDir then
          match rest with
          | [] => Except.ok (some ⟨node.ptr, node.isDir, acc ++ [nm]⟩)
          | _ :: _ =>
            match ResourceDirectory.child_count r node.ptr with
            | Except.error e => Except.error e
            | Except.ok cc2 =>
              match ResourceDirectory.child_offset r node.ptr with
              | Except.error e => Except.error e
              | Except.ok co2 => ResourceReader.findLoop r (acc ++ [nm]) cc2 co2 rest
        else
          match rest with
          | [] => Except.ok (some ⟨node.ptr, node.isDir, acc ++ [nm]⟩)
          | _ :: _ => Except.ok none

/-- `ResourceReader::find` after path normalisation: derive the root, reject
a file at index 0, answer `/` with the root, then descend segment by
segment. -/
def ResourceReader.findSegs (r : Reader) (segs : List (List Char)) :
    Except Err (Option Res) :=
  match Resource.derive r 0 with
  | Except.error e => Except.error e
  | Except.ok root =>
    if root.isDir = false then Except.error Err.invalidData
    else
      match segs with
      | [] => Except.ok (some ⟨root.ptr, root.isDir, []⟩)
      | seg :: rest =>
        match ResourceDirectory.child_count r root.ptr with
        | Except.error e => Except.error e
        | Except.ok cc =>
          match ResourceDirectory.child_offset r root.ptr with
          | Except.error e => Except.error e
          | Except.ok co => ResourceReader.findLoop r [] cc co (seg :: rest)

/-- `ResourceReader::find`: normalise, then resolve. -/
def ResourceReader.find (r : Reader) (path : String) : Except Err (Option Res) :=
  ResourceReader.findSegs r (normalizePath path)

/-- C6: whatever the path, when the flags of record 0 decode with the
directory bit 0x02 clear, `find` fails with `InvalidData` and never yields
a resource. -/
theorem c6_file_root_rejected (r : Reader) (path : String) (flags : Nat)
    (hf : readU16 r.bytes (ResourceReader.find_ptr r 0 + 4) = some flags)
    (hdir : flags &&& 2 = 0) :
    ResourceReader.find r path = Except.error Err.invalidData := by
  unfold ResourceReader.find ResourceReader.findSegs Resource.derive
  rw [hf]
  simp [hdir]

def readerC6 : Reader := ⟨0, 0, 0, 1, [0, 0, 0, 0, 0, 0]⟩

def pathC6 : String := "/images"

theorem c6_file_root_rejected_witness :
    ResourceReader.find readerC6 pathC6 = Except.error Err.invalidData :=
  c6_file_root_rejected readerC6 pathC6 0 (by rfl) (by rfl)

def winRelPath : String := "images\\small.jpg"

def winDrivePath : String := "C:\\images\\small.jpg"

def posixPath : String := "/images/small.jpg"

/-- C7: the three spellings of the same path normalise to the same segment
list, so `find` returns equal results on them for every byte image. -/
theorem c7_path_dialects_equal (r : Reader) :
    normalizePath winRelPath = normalizePath posixPath ∧
    normalizePath winDrivePath = normalizePath posixPath ∧
    ResourceReader.find r winRelPath = ResourceReader.find r winDrivePath ∧
    ResourceReader.find r winDrivePath = ResourceReader.find r posixPath := by
  have h1 : normalizePath winRelPath = normalizePath posixPath := by decide
  have h2 : normalizePath winDrivePath = normalizePath posixPath := by decide
  refine ⟨h1, h2, ?_, ?_⟩ <;> unfold ResourceReader.find
  · rw [h1, h2]
  · rw [h2]

/-- The standard halving sequence of the spec, stated in the spec's words
(left starts at 0, right at child_count, mid is `(left + right) / 2`): the
first midpoint whose hash reaches equality with the key, over an abstract
hash-at-child-index function. `ResourceReader.binary_search` is proved to
return exactly the record this sequence selects. -/
def specHalvingFirstMatch (h : Nat → Nat) (key left right : Nat) : Option Nat :=
  if _h : left < right then
    if h ((left + right) / 2) = key then some ((left + right) / 2)
    else if h ((left + right) / 2) < key then
      specHalvingFirstMatch h key ((left + right) / 2 + 1) right
    else specHalvingFirstMatch h key left ((left + right) / 2)
  else none
termination_by right - left
decreasing_by
  all_goals omega

theorem shfm_some_aux (h : Nat → Nat) (key : Nat) :
    ∀ n l r m, r - l ≤ n → specHalvingFirstMatch h key l r = some m →
      l ≤ m ∧ m < r ∧ h m = key := by
  intro n
  induction n with
  | zero =>
    intro l r m hn heq
    unfold specHalvingFirstMatch at heq
    have hlr : ¬ l < r := by omega
    rw [dif_neg hlr] at heq
    cases heq
  | succ n ih =>
    intro l r m hn heq
    unfold specHalvingFirstMatch at heq
    by_cases hlr : l < r
    · rw [dif_pos hlr] at heq
      by_cases he : h ((l + r) / 2) = key
      · rw [if_pos he] at heq
        cases heq
        exact ⟨by omega, by omega, he⟩
      · rw [if_neg he] at heq
        by_cases hlt : h ((l + r) / 2) < key
        · rw [if_pos hlt] at heq
          have hrec := ih ((l + r) / 2 + 1) r m (by omega) heq
          exact ⟨by omega, hrec.2.1, hrec.2.2⟩
        · rw [if_neg hlt] at heq
          have hrec := ih l ((l + r) / 2) m (by omega) heq
          exact ⟨hrec.1, by omega, hrec.2.2⟩
    · rw [dif_neg hlr] at heq
      cases heq

theorem shfm_none_aux (h : Nat → Nat) (key cnt : Nat)
    (hsorted : ∀ i j, i ≤ j → j < cnt → h i ≤ h j) :
    ∀ n l r, r - l ≤ n → r ≤ cnt → specHalvingFirstMatch h key l r = none →
      ∀ i, l ≤ i → i < r → h i ≠ key := by
  intro n
  induction n with
  | zero =>
    intro l r hn _ _ i hi1 hi2
    omega
  | succ n ih =>
    intro l r hn hr heq i hi1 hi2
    unfold specHalvingFirstMatch at heq
    have hlr : l < r := by omega
    rw [dif_pos hlr] at heq
    by_cases he : h ((l + r) / 2) = key
    · rw [if_pos he] at heq
      cases heq
    · rw [if_neg he] at heq
      by_cases hlt : h ((l + r) / 2) < key
      · rw [if_pos hlt] at heq
        by_cases him : i ≤ (l + r) / 2
        · have hle := hsorted i ((l + r) / 2) him (by omega)
          intro hcontra
          omega
        · exact ih ((l + r) / 2 + 1) r (by omega) hr heq i (by omega) hi2
      · rw [if_neg hlt] at heq
        by_cases him : i < (l + r) / 2
        · exact ih l ((l + r) / 2) (by omega) (by omega) heq i hi1 him
        · have hle := hsorted ((l + r) / 2) i (by omega) (by omega)
          intro hcontra
          omega

theorem bsearchLoop_shfm (r : Reader) (key co cc : Nat) (h : Nat → Nat)
    (hder : ∀ i, i < cc → isOkE (Resource.derive r (co + i)) = true)
    (hhash : ∀ i, i < cc →
      resourceHash r (ResourceReader.find_ptr r (co + i)) = Except.ok (h i)) :
    ∀ n l rr, rr - l ≤ n → rr ≤ cc →
      (specHalvingFirstMatch h key l rr = none →
        ResourceReader.bsearchLoop r key co l rr = Except.ok none) ∧
      (∀ m, specHalvingFirstMatch h key l rr = some m →
        ∃ node, ResourceReader.bsearchLoop r key co l rr = Except.ok (some node) ∧
          node.ptr = ResourceReader.find_ptr r (co + m) ∧
          Resource.derive r (co + m) = Except.ok node) := by
  intro n
  induction n with
  | zero =>
    intro l rr hn _
    have hlr : ¬ l < rr := by omega
    constructor
    · intro _
      unfold ResourceReader.bsearchLoop
      rw [dif_neg hlr]
    · intro m hm
      unfold specHalvingFirstMatch at hm
      rw [dif_neg hlr] at hm
      cases hm
  | succ n ih =>
    intro l rr hn hcc
    by_cases hlr : l < rr
    · have hmidlt : (l + rr) / 2 < cc := by omega
      obtain ⟨node, hnode⟩ := derive_isOk_ex r (co + (l + rr) / 2) (hder _ hmidlt)
      have hshape := derive_ok_shape r (co + (l + rr) / 2) node hnode
      have hhashm := hhash _ hmidlt
      constructor
      · intro hnone
        unfold specHalvingFirstMatch at hnone
        rw [dif_pos hlr] at hnone
        unfold ResourceReader.bsearchLoop
        rw [dif_pos hlr]
        simp only [hnode, hshape.1, hhashm]
        by_cases he : h ((l + rr) / 2) = key
        · rw [if_pos he] at hnone
          cases hnone
        · rw [if_neg he] at hnone
          rw [if_neg he]
          by_cases hlt : h ((l + rr) / 2) < key
          · rw [if_pos hlt] at hnone
            rw [if_pos hlt]
            exact (ih ((l + rr) / 2 + 1) rr (by omega) hcc).1 hnone
          · rw [if_neg hlt] at hnone
            rw [if_neg hlt]
            exact (ih l ((l + rr) / 2) (by omega) (by omega)).1 hnone
      · intro m hm
        unfold specHalvingFirstMatch at hm
        rw [dif_pos hlr] at hm
        unfold ResourceReader.bsearchLoop
        rw [dif_pos hlr]
        simp only [hnode, hshape.1, hhashm]
        by_cases he : h ((l + rr) / 2) = key
        · rw [if_pos he] at hm
          cases hm
          rw [if_pos he]
          exact ⟨node, rfl, hshape.1, hnode⟩
        · rw [if_neg he] at hm
          rw [if_neg he]
          by_cases hlt : h ((l + rr) / 2) < key
          · rw [if_pos hlt] at hm
            rw [if_pos hlt]
            exact (ih ((l + rr) / 2 + 1) rr (by omega) hcc).2 m hm
          · rw [if_neg hlt] at hm
            rw [if_neg hlt]
            exact (ih l ((l + rr) / 2) (by omega) (by omega)).2 m hm
    · constructor
      · intro _
        unfold ResourceReader.bsearchLoop
        rw [dif_neg hlr]
      · intro m hm
        unfold specHalvingFirstMatch at hm
        rw [dif_neg hlr] at hm
        cases hm

theorem bsearchChecked_eq_loop (r : Reader) (key co cc : Nat)
    (hcc : cc ≤ 2147483648) :
    ∀ n l rr, rr - l ≤ n → rr ≤ cc →
      ResourceReader.bsearchChecked r key co l rr =
        LoopOut.done (ResourceReader.bsearchLoop r key co l rr) := by
  intro n
  induction n with
  | zero =>
    intro l rr hn _
    have hlr : ¬ l < rr := by omega
    unfold ResourceReader.bsearchChecked ResourceReader.bsearchLoop
    rw [dif_neg hlr, dif_neg hlr]
  | succ n ih =>
    intro l rr hn hrr
    by_cases hlr : l < rr
    · have hov : l + rr ≤ 4294967295 := by omega
      unfold ResourceReader.bsearchChecked ResourceReader.bsearchLoop
      rw [dif_pos hlr, dif_pos hlr, dif_pos hov]
      cases hd : Resource.derive r (co + (l + rr) / 2) with
      | error e => simp only [hd]
      | ok node =>
        simp only [hd]
        cases hh : resourceHash r node.ptr with
        | error e => simp only [hh]
        | ok hsh =>
          simp only [hh]
          by_cases he : hsh = key
          · rw [if_pos he, if_pos he]
          · rw [if_neg he, if_neg he]
            by_cases hlt : hsh < key
            · rw [if_pos hlt, if_pos hlt]
              exact ih ((l + rr) / 2 + 1) rr (by omega) hrr
            · rw [if_neg hlt, if_neg hlt]
              exact ih l ((l + rr) / 2) (by omega) (by omega)
    · unfold ResourceReader.bsearchChecked ResourceReader.bsearchLoop
      rw [dif_neg hlr, dif_neg hlr]

/-- C1 amended: over a child range with at most `2^31` children whose
hashes (read through each record's name entry) are non-decreasing, the
checked-`u32` search never hits the overflow branch and coincides with the
exact loop, and `binary_search` yields a resource exactly when some child's
hash equals `qt_hash(segment, 0)`; the returned resource carries that hash
and is the record selected by the first equal midpoint of the spec's
halving sequence — names are never compared. Beyond `2^31` children the
claim fails on the source's `u32` arithmetic (`c1_counterexample`). -/
theorem c1_binary_search_correct (r : Reader) (seg : List Char) (cc co : Nat)
    (h : Nat → Nat)
    (hcc : cc ≤ 2147483648)
    (hder : ∀ i, i < cc → isOkE (Resource.derive r (co + i)) = true)
    (hhash : ∀ i, i < cc →
      resourceHash r (ResourceReader.find_ptr r (co + i)) = Except.ok (h i))
    (hsorted : ∀ i j, i ≤ j → j < cc → h i ≤ h j) :
    (ResourceReader.binary_search_checked r seg cc co =
      LoopOut.done (ResourceReader.binary_search r seg cc co)) ∧
    ((∃ i, i < cc ∧ h i = qt_hash seg 0) ↔
      (∃ node, ResourceReader.binary_search r seg cc co = Except.ok (some node))) ∧
    ((¬ ∃ i, i < cc ∧ h i = qt_hash seg 0) →
      ResourceReader.binary_search r seg cc co = Except.ok none) ∧
    (∀ node, ResourceReader.binary_search r seg cc co = Except.ok (some node) →
      resourceHash r node.ptr = Except.ok (qt_hash seg 0) ∧
      ∃ m, specHalvingFirstMatch h (qt_hash seg 0) 0 cc = some m ∧
        node.ptr = ResourceReader.find_ptr r (co + m)) := by
  have hbs : ResourceReader.binary_search r seg cc co =
      ResourceReader.bsearchLoop r (qt_hash seg 0) co 0 cc := rfl
  have hmain := bsearchLoop_shfm r (qt_hash seg 0) co cc h hder hhash cc 0 cc
    (by omega) (le_refl cc)
  have hnone_no_witness : specHalvingFirstMatch h (qt_hash seg 0) 0 cc = none →
      ¬ ∃ i, i < cc ∧ h i = qt_hash seg 0 := by
    intro hnone ⟨i, hi, hieq⟩
    exact shfm_none_aux h (qt_hash seg 0) cc hsorted cc 0 cc (by omega)
      (le_refl cc) hnone i (Nat.zero_le i) hi hieq
  refine ⟨?_, ⟨?_, ?_⟩, ?_, ?_⟩
  · exact bsearchChecked_eq_loop r (qt_hash seg 0) co cc hcc cc 0 cc
      (by omega) (le_refl cc)
  · intro hex
    cases hshfm : specHalvingFirstMatch h (qt_hash seg 0) 0 cc with
    | none => exact absurd hex (hnone_no_witness hshfm)
    | some m =>
      obtain ⟨node, hloop, _, _⟩ := hmain.2 m hshfm
      exact ⟨node, by rw [hbs]; exact hloop⟩
  · intro ⟨node, hfound⟩
    cases hshfm : specHalvingFirstMatch h (qt_hash seg 0) 0 cc with
    | none =>
      rw [hbs, hmain.1 hshfm] at hfound
      cases hfound
    | some m =>
      have hsome := shfm_some_aux h (qt_hash seg 0) cc 0 cc m (by omega) hshfm
      exact ⟨m, hsome.2.1, hsome.2.2⟩
  · intro hnex
    cases hshfm : specHalvingFirstMatch h (qt_hash seg 0) 0 cc with
    | none => rw [hbs]; exact hmain.1 hshfm
    | some m =>
      have hsome := shfm_some_aux h (qt_hash seg 0) cc 0 cc m (by omega) hshfm
      exact absurd ⟨m, hsome.2.1, hsome.2.2⟩ hnex
  · intro node hfound
    cases hshfm : specHalvingFirstMatch h (qt_hash seg 0) 0 cc with
    | none =>
      rw [hbs, hmain.1 hshfm] at hfound
      cases hfound
    | some m =>
      obtain ⟨node2, hloop, hptr, _⟩ := hmain.2 m hshfm
      rw [hbs, hloop] at hfound
      have hnodes : node2 = node := by
        injection hfound with hf
        injection hf
      subst hnodes
      have hsome := shfm_some_aux h (qt_hash seg 0) cc 0 cc m (by omega) hshfm
      refine ⟨?_, m, rfl, hptr⟩
      rw [hptr, hhash m hsome.2.1, hsome.2.2]

def readerC1 : Reader :=
  ⟨0, 28, 0, 1,
    [0, 0, 0, 0, 0, 0, 0, 0, 0, 0, 0, 0, 0, 0,
     0, 0, 0, 0, 0, 0, 0, 0, 0, 0, 0, 0, 0, 0,
     0, 0, 0, 0, 0, 97]⟩

def segC1 : List Char := ['a']

theorem c1_binary_search_correct_witness :
    (∃ i, i < 1 ∧ (fun _ : Nat => 97) i = qt_hash segC1 0) ∧
    (∃ node, ResourceReader.binary_search readerC1 segC1 1 1 =
      Except.ok (some node)) := by
  have hder : ∀ i, i < 1 → isOkE (Resource.derive readerC1 (1 + i)) = true := by
    intro i hi
    have hz : i = 0 := by omega
    subst hz
    rfl
  have hhash : ∀ i, i < 1 →
      resourceHash readerC1 (ResourceReader.find_ptr readerC1 (1 + i)) =
        Except.ok ((fun _ : Nat => 97) i) := by
    intro i hi
    have hz : i = 0 := by omega
    subst hz
    rfl
  have hsorted : ∀ i j : Nat, i ≤ j → j < 1 →
      (fun _ : Nat => 97) i ≤ (fun _ : Nat => 97) j :=
    fun _ _ _ _ => Nat.le_refl 97
  have hex : ∃ i, i < 1 ∧ (fun _ : Nat => 97) i = qt_hash segC1 0 :=
    ⟨0, by omega, by decide⟩
  exact ⟨hex,
    (c1_binary_search_correct readerC1 segC1 1 1 (fun _ => 97)
      (by norm_num) hder hhash hsorted).2.1.mp hex⟩

/-- The pairs (left, right) that the loop of `ResourceReader::binary_search`
can reach for a directory with `cnt` children, given the hash each probe
reads: the loop starts at (0, cnt) and narrows by the comparison at the
midpoint exactly as the source does. -/
inductive BSReach (h : Nat → Nat) (key cnt : Nat) : Nat → Nat → Prop
  | init : BSReach h key cnt 0 cnt
  | lower {l r : Nat} : BSReach h key cnt l r → l < r →
      h ((l + r) / 2) < key → BSReach h key cnt ((l + r) / 2 + 1) r
  | upper {l r : Nat} : BSReach h key cnt l r → l < r →
      key < h ((l + r) / 2) → BSReach h key cnt l ((l + r) / 2)

/-- C10: with at most `2^31` children, every state the `binary_search` loop
reaches keeps `left ≤ mid < right ≤ child_count`, and `left + right` never
exceeds `u32::MAX`, so the wrapping/panicking branch of the `u32` addition
is unreachable. -/
theorem c10_binary_search_no_overflow (h : Nat → Nat) (key cnt l r : Nat)
    (hcnt : cnt ≤ 2147483648) (hreach : BSReach h key cnt l r) :
    l ≤ r ∧ r ≤ cnt ∧
    (l < r → l ≤ (l + r) / 2 ∧ (l + r) / 2 < r ∧ l + r ≤ 4294967295) := by
  induction hreach with
  | init =>
    refine ⟨Nat.zero_le _, le_refl _, ?_⟩
    intro hlr
    omega
  | lower hreach hlr hlt ih =>
    obtain ⟨h1, h2, _⟩ := ih
    refine ⟨by omega, h2, ?_⟩
    intro hlr2
    omega
  | upper hreach hlr hgt ih =>
    obtain ⟨h1, h2, _⟩ := ih
    refine ⟨by omega, by omega, ?_⟩
    intro hlr2
    omega

theorem c10_binary_search_no_overflow_witness :
    0 ≤ 2 ∧ 2 ≤ 2 ∧
    (0 < 2 → 0 ≤ (0 + 2) / 2 ∧ (0 + 2) / 2 < 2 ∧ 0 + 2 ≤ 4294967295) :=
  c10_binary_search_no_overflow (fun _ => 0) 1 2 0 2 (by omega) BSReach.init

theorem beVal_replicate_zero (n : Nat) : beVal (List.replicate n 0) = 0 := by
  induction n with
  | zero => rfl
  | succ n ih =>
    rw [List.replicate_succ]
    show List.foldl (fun a x => a * 256 + x) (0 * 256 + 0) (List.replicate n 0) = 0
    simpa using ih

theorem readBE_replicate (N off n : Nat) (h : off + n ≤ N) :
    readBE (List.replicate N 0) off n = some 0 := by
  unfold readBE
  rw [List.length_replicate, if_pos h, List.drop_replicate, List.take_replicate]
  have hmin : min n (N - off) = n := by omega
  rw [hmin, beVal_replicate_zero]

/-- A syntactically huge but well-formed image: `2^32 + 6` zero bytes, so
that every record index below `2^32` has readable flags and a readable
name-table hash (all hashes are 0); `struct_offset = name_offset = 0`,
format version 1 (stride 14). -/
def readerBig : Reader := ⟨0, 0, 0, 1, List.replicate 4294967302 0⟩

theorem readerBig_find_ptr (j : Nat) :
    ResourceReader.find_ptr readerBig j = (j * 14) % 4294967296 := by
  unfold ResourceReader.find_ptr readerBig
  norm_num

theorem derive_isOk_of_read (r : Reader) (j flags : Nat)
    (h : readU16 r.bytes (ResourceReader.find_ptr r j + 4) = some flags) :
    isOkE (Resource.derive r j) = true := by
  unfold Resource.derive
  rw [h]
  rfl

theorem resourceHash_of_reads (r : Reader) (p nameOff h0 : Nat)
    (h1 : readU32 r.bytes p = some nameOff)
    (h2 : readU32 r.bytes (r.name_offset + nameOff + 2) = some h0) :
    resourceHash r p = Except.ok h0 := by
  unfold resourceHash
  simp only [h1]
  simp only [h2]

theorem readerBig_flags_read (i : Nat) :
    readU16 readerBig.bytes (ResourceReader.find_ptr readerBig i + 4) =
      some 0 := by
  rw [readerBig_find_ptr]
  show readU16 (List.replicate 4294967302 0) ((i * 14) % 4294967296 + 4) = some 0
  unfold readU16
  apply readBE_replicate
  have := Nat.mod_lt (i * 14) (y := 4294967296) (by norm_num)
  omega

theorem readerBig_name_offset_read (i : Nat) :
    readU32 readerBig.bytes (ResourceReader.find_ptr readerBig i) = some 0 := by
  rw [readerBig_find_ptr]
  show readU32 (List.replicate 4294967302 0) ((i * 14) % 4294967296) = some 0
  unfold readU32
  apply readBE_replicate
  have := Nat.mod_lt (i * 14) (y := 4294967296) (by norm_num)
  omega

theorem readerBig_name_hash_read :
    readU32 readerBig.bytes (readerBig.name_offset + 0 + 2) = some 0 := by
  show readU32 (List.replicate 4294967302 0) (0 + 0 + 2) = some 0
  unfold readU32
  exact readBE_replicate _ _ _ (by omega)

theorem bsearchChecked_const_zero_panics (r : Reader) (key co cc : Nat)
    (hkey : 0 < key) (hcc : 2147483649 ≤ cc)
    (hder : ∀ i, i < cc → isOkE (Resource.derive r (co + i)) = true)
    (hhash : ∀ i, i < cc →
      resourceHash r (ResourceReader.find_ptr r (co + i)) = Except.ok 0) :
    ∀ n l, cc - l ≤ n → l < cc →
      ResourceReader.bsearchChecked r key co l cc = LoopOut.panicked := by
  intro n
  induction n with
  | zero =>
    intro l hn hl
    omega
  | succ n ih =>
    intro l hn hl
    unfold ResourceReader.bsearchChecked
    rw [dif_pos hl]
    by_cases hov : l + cc ≤ 4294967295
    · rw [dif_pos hov]
      have hmid : (l + cc) / 2 < cc := by omega
      obtain ⟨node, hnode⟩ := derive_isOk_ex r (co + (l + cc) / 2) (hder _ hmid)
      have hshape := derive_ok_shape r (co + (l + cc) / 2) node hnode
      have hh := hhash _ hmid
      simp only [hnode, hshape.1, hh]
      rw [if_neg (by omega : ¬ (0 : Nat) = key), if_pos hkey]
      exact ih ((l + cc) / 2 + 1) (by omega) (by omega)
    · rw [dif_neg hov]

/-- C1 counterexample: a directory with `2^31 + 1` children, every child
hash 0 (readable, trivially non-decreasing) and a segment hashing to 97, so
the claim, as stated, demands that `binary_search` return `None`; the
source's `u32` loop instead drives `left` upward until `left + right`
exceeds `u32::MAX` and takes the overflow branch — a panic in debug builds,
and in release builds a wrapped midpoint below `left`, off the claimed
halving sequence. The claim therefore needs the `child_count ≤ 2^31`
bound of the amended theorem. -/
theorem c1_counterexample :
    (∀ i, i < 2147483649 → isOkE (Resource.derive readerBig (0 + i)) = true) ∧
    (∀ i, i < 2147483649 →
      resourceHash readerBig (ResourceReader.find_ptr readerBig (0 + i)) =
        Except.ok 0) ∧
    (¬ ∃ i, i < 2147483649 ∧ (0 : Nat) = qt_hash segC1 0) ∧
    ResourceReader.binary_search_checked readerBig segC1 2147483649 0 ≠
      LoopOut.done (Except.ok none) := by
  have hder : ∀ i, i < 2147483649 →
      isOkE (Resource.derive readerBig (0 + i)) = true := by
    intro i _
    exact derive_isOk_of_read readerBig (0 + i) 0 (readerBig_flags_read (0 + i))
  have hhash : ∀ i, i < 2147483649 →
      resourceHash readerBig (ResourceReader.find_ptr readerBig (0 + i)) =
        Except.ok 0 := by
    intro i _
    exact resourceHash_of_reads readerBig _ 0 0 (readerBig_name_offset_read (0 + i))
      readerBig_name_hash_read
  have hkey : qt_hash segC1 0 = 97 := by decide
  refine ⟨hder, hhash, ?_, ?_⟩
  · intro ⟨i, _, hzero⟩
    rw [hkey] at hzero
    exact absurd hzero (by norm_num)
  · have hpanic : ResourceReader.binary_search_checked readerBig segC1
        2147483649 0 = LoopOut.panicked := by
      show ResourceReader.bsearchChecked readerBig (qt_hash segC1 0) 0 0
        2147483649 = LoopOut.panicked
      rw [hkey]
      exact bsearchChecked_const_zero_panics readerBig 97 0 2147483649
        (by norm_num) (by norm_num) hder hhash 2147483649 0 (by omega)
        (by norm_num)
    rw [hpanic]
    exact fun hcontra => LoopOut.noConfusion hcontra
